import Mathlib

/-!
# Verification of the `multipledispatch` dispatch core

Shallow embedding of `src/multipledispatch/__init__.py`.

* A Python `type` is modelled as an element of an abstract universe `Ty`
  together with a boolean relation `issub : Ty → Ty → Bool` standing for
  `issubclass`.  `isinstance(x, c)` is modelled as `issub t c` where `t` is
  the runtime type of `x`.
* A `Signature` (a tuple of types) is modelled as `List Ty`.  Tuple
  `__eq__` on signatures is pointwise type equality, i.e. list equality.
* The ordered dict `signature_map` is modelled as an association list
  `List (List Ty × Fn)` in iteration (insertion) order; `dict(items)` is
  modelled by `listToDict`, which reproduces Python's dict-from-pairs
  semantics (first occurrence of a key fixes its position, the last binding
  fixes its value).
* Implementations (callables) are opaque handles `Fn`; `__call__` is
  modelled by `resolve`, which returns the selected handle instead of
  invoking it, and returns the attempted argument types on failure
  (the code raises `TypeError` with `args` in the message).
* Parameter annotations are modelled by `Option (Hint Ty)`: `none` for an
  unannotated parameter (absent from `get_type_hints`), `some .anyH` for
  `Any`, `some (.tyH t)` for a plain type, `some (.unionH ts)` for
  `Union[...]` whose `get_args` are `ts`.
-/

inductive Hint (Ty : Type) : Type where
  | anyH : Hint Ty
  | tyH (t : Ty) : Hint Ty
  | unionH (ts : List Ty) : Hint Ty
deriving DecidableEq, Repr

/-- The table of one dispatcher: `signature_map` as an ordered entry list. -/
abbrev Table (Ty Fn : Type) : Type := List (List Ty × Fn)

/-- Registration failures of `multipledispatch.register` (both raised as
`TypeError` in Python): `noParams` is the `TypeError` raised by calling
`unpack_signatures()` with no specs (zero-parameter function), `conflict`
is the "Multiple definitions of function for same parameter types" error,
carrying the already-registered and the incoming implementation. -/
inductive RegError (Fn : Type) : Type where
  | noParams : RegError Fn
  | conflict (registered incoming : Fn) : RegError Fn
deriving DecidableEq, Repr

/-- `Signature.supercedes`: `all(map(issubclass, self, other))`.
`map` over two iterables truncates to the shorter one, hence the `zip`. -/
def supercedes {Ty : Type} (issub : Ty → Ty → Bool) (a b : List Ty) : Bool :=
  (a.zip b).all fun p => issub p.1 p.2

/-- `Signature.__lt__`: `False` on arity mismatch, otherwise
`self.supercedes(other) and not other.supercedes(self)`. -/
def sigLt {Ty : Type} (issub : Ty → Ty → Bool) (a b : List Ty) : Bool :=
  if a.length ≠ b.length then false
  else supercedes issub a b && !(supercedes issub b a)

/-- `Signature.__eq__`: `False` on arity mismatch, otherwise pointwise
type equality (`all(a == b for a, b in zip(self, other))`). -/
def sigEqb {Ty : Type} [DecidableEq Ty] (a b : List Ty) : Bool :=
  if a.length ≠ b.length then false
  else (a.zip b).all fun p => decide (p.1 = p.2)

/-- The list of concrete types one parameter position ranges over.  This
combines `get_signatures`' treatment of the hint (`type_hints.get(param,
object)`, then `Any ↦ object`) with `unpack_signatures`' case split
(`get_args` of a `Union`, else the singleton of the plain type). -/
def specOfHint {Ty : Type} (obj : Ty) : Option (Hint Ty) → List Ty
  | none => [obj]
  | some Hint.anyH => [obj]
  | some (Hint.tyH t) => [t]
  | some (Hint.unionH ts) => ts

/-- `unpack_signatures(tp, *args)`: for each type of the first spec,
prepend it to every signature of the remaining specs (or yield the
one-element signature when there are no remaining specs).  The first spec
is a required positional argument, so the function is only defined for at
least one spec. -/
def unpack_signatures {Ty : Type} (obj : Ty) (tp : Option (Hint Ty)) :
    List (Option (Hint Ty)) → List (List Ty)
  | [] => (specOfHint obj tp).map fun t => [t]
  | a :: rest =>
      (specOfHint obj tp).flatMap fun t =>
        (unpack_signatures obj a rest).map fun s => t :: s

/-- `get_signatures(fn)`: the expanded signatures of an implementation
whose parameters carry the given hints.  `none` models the `TypeError`
raised by `unpack_signatures(*[])` when the function has no parameters. -/
def get_signatures {Ty : Type} (obj : Ty) :
    List (Option (Hint Ty)) → Option (List (List Ty))
  | [] => none
  | p :: ps => some (unpack_signatures obj p ps)

/-- `self.signature_map.get(signature)`: lookup by signature equality. -/
def lookupFn {Ty Fn : Type} [DecidableEq Ty] (t : Table Ty Fn) (s : List Ty) :
    Option Fn :=
  (t.find? fun e => decide (e.1 = s)).map fun e => e.2

/-- One step of `dict(items)`: a pair whose key is already bound replaces
that key's value in place, a fresh key is appended. -/
def dictInsert {K V : Type} [DecidableEq K] (d : List (K × V)) (kv : K × V) :
    List (K × V) :=
  if d.any fun e => decide (e.1 = kv.1) then
    d.map fun e => if e.1 = kv.1 then (e.1, kv.2) else e
  else d ++ [kv]

/-- `dict(items)` for an ordered pair list. -/
def listToDict {K V : Type} [DecidableEq K] (l : List (K × V)) : List (K × V) :=
  l.foldl dictInsert []

/-- The inner loop of `_add_items`: insert one entry immediately before the
first existing entry its signature is strictly less than, else append. -/
def insertOne {Ty Fn : Type} (issub : Ty → Ty → Bool) :
    Table Ty Fn → List Ty × Fn → Table Ty Fn
  | [], e => [e]
  | it :: rest, e =>
      if sigLt issub e.1 it.1 then e :: it :: rest
      else it :: insertOne issub rest e

/-- `_add_items(new_items)`: insert each new entry in turn into the current
item list, then rebuild the dict (`self.signature_map = dict(items)`). -/
def addItems {Ty Fn : Type} [DecidableEq Ty] (issub : Ty → Ty → Bool)
    (t : Table Ty Fn) (new : List (List Ty × Fn)) : Table Ty Fn :=
  listToDict (new.foldl (insertOne issub) t)

/-- `multipledispatch.register(fn)`: expand the signatures, fail if the
function has no parameters, fail on the first expanded signature already
present in the table, otherwise insert the whole batch.  The result pairs
the table after the call with the error, if any; on error the table
component equals the input table (the code raises before `_add_items`). -/
def register {Ty Fn : Type} [DecidableEq Ty] (issub : Ty → Ty → Bool)
    (obj : Ty) (t : Table Ty Fn) (params : List (Option (Hint Ty))) (fn : Fn) :
    Table Ty Fn × Option (RegError Fn) :=
  match get_signatures obj params with
  | none => (t, some RegError.noParams)
  | some sigs =>
      match sigs.findSome? (fun s => lookupFn t s) with
      | some g => (t, some (RegError.conflict g fn))
      | none => (addItems issub t (sigs.map fun s => (s, fn)), none)

/-- The boolean match test of `__call__` for one entry:
`len(signature) == len(args) and all(map(isinstance, args, signature))`,
with runtime arguments represented by their types. -/
def matchesB {Ty : Type} (issub : Ty → Ty → Bool) (sig args : List Ty) : Bool :=
  sig.length == args.length && (args.zip sig).all fun p => issub p.1 p.2

/-- `multipledispatch.__call__(*args)`: scan the entries in stored order,
return the implementation of the first match; with no match, fail carrying
the attempted argument types (the raised `TypeError` message). -/
def resolve {Ty Fn : Type} (issub : Ty → Ty → Bool) :
    Table Ty Fn → List Ty → Except (List Ty) Fn
  | [], args => Except.error args
  | e :: rest, args =>
      if matchesB issub e.1 args then Except.ok e.2
      else resolve issub rest args

/-- A whole lifecycle: start from the empty table (`signature_map = dict()`)
and perform the registrations in order, keeping the table of each step
(`__init__` is the first registration).  Failed registrations leave the
table unchanged, as in the code. -/
def runRegs {Ty Fn : Type} [DecidableEq Ty] (issub : Ty → Ty → Bool) (obj : Ty)
    (regs : List (List (Option (Hint Ty)) × Fn)) : Table Ty Fn :=
  regs.foldl (fun t r => (register issub obj t r.1 r.2).1) []

/-- All registrations of a lifecycle succeed. -/
def regsOk {Ty Fn : Type} [DecidableEq Ty] (issub : Ty → Ty → Bool) (obj : Ty)
    (regs : List (List (Option (Hint Ty)) × Fn)) : Bool :=
  (regs.foldl
    (fun (acc : Table Ty Fn × Bool) r =>
      let res := register issub obj acc.1 r.1 r.2
      (res.1, acc.2 && res.2.isNone))
    ([], true)).2

/-- Specification-level membership of the subtype relation. -/
def SubTy {Ty : Type} (issub : Ty → Ty → Bool) (a b : Ty) : Prop :=
  issub a b = true

/-- Specification-level match: the signature has the same arity as the
argument-type list and each declared type is a supertype of, or equal to,
the corresponding runtime argument type. -/
def Matches {Ty : Type} (issub : Ty → Ty → Bool) (sig args : List Ty) : Prop :=
  List.Forall₂ (fun a s => issub a s = true) args sig

/-- Specification-level linearization invariant of the table: no entry is
strictly more specific than an entry appearing before it, i.e. whenever
`X < Y` holds between two stored signatures, `X` appears before `Y`. -/
def Linearized {Ty Fn : Type} (issub : Ty → Ty → Bool) (t : Table Ty Fn) : Prop :=
  List.Pairwise (fun a b => sigLt issub b a = false) (t.map Prod.fst)

/-- Cartesian product of a list of per-position type lists, left-to-right,
varying later positions fastest: the order the specification prescribes for
union expansion. -/
def cart {α : Type} : List (List α) → List (List α)
  | [] => [[]]
  | ts :: rest => ts.flatMap fun t => (cart rest).map fun s => t :: s

/-! ## Concrete type universes for examples and counterexamples -/

/-- A fragment of Python's type universe: `object`, `int`, `str`. -/
inductive PyTy : Type where
  | objT : PyTy
  | intT : PyTy
  | strT : PyTy
deriving DecidableEq, Repr, Fintype

/-- `issubclass` on the fragment: everything is a subclass of `object`,
and the relation is reflexive. -/
def pyIssub : PyTy → PyTy → Bool
  | _, PyTy.objT => true
  | a, b => a == b

/-- A universe with multiple inheritance: classes `Animal`, `Plant`,
`Dog(Animal)`, `PD(Dog, Plant)`, below a common `object`. -/
inductive VTy : Type where
  | objV : VTy
  | animal : VTy
  | plant : VTy
  | dog : VTy
  | pd : VTy
deriving DecidableEq, Repr, Fintype

/-- `issubclass` for `VTy`. -/
def vIssub : VTy → VTy → Bool
  | _, VTy.objV => true
  | VTy.dog, VTy.animal => true
  | VTy.pd, VTy.animal => true
  | VTy.pd, VTy.plant => true
  | VTy.pd, VTy.dog => true
  | a, b => a == b

/-- The registration sequence of the worked example: `(object, object)`,
`(str, int)`, `(str, str)`, `(int, Union[int, str])`, with implementation
handles 0, 1, 2, 3. -/
def exampleRegs : List (List (Option (Hint PyTy)) × Nat) :=
  [([some (Hint.tyH PyTy.objT), some (Hint.tyH PyTy.objT)], 0),
   ([some (Hint.tyH PyTy.strT), some (Hint.tyH PyTy.intT)], 1),
   ([some (Hint.tyH PyTy.strT), some (Hint.tyH PyTy.strT)], 2),
   ([some (Hint.tyH PyTy.intT), some (Hint.unionH [PyTy.intT, PyTy.strT])], 3)]

/-- Registrations `(Animal,) ↦ 0`, `(Plant,) ↦ 1`, `(Dog,) ↦ 2`. -/
def cexRegs : List (List (Option (Hint VTy)) × Nat) :=
  [([some (Hint.tyH VTy.animal)], 0),
   ([some (Hint.tyH VTy.plant)], 1),
   ([some (Hint.tyH VTy.dog)], 2)]

/-! ## Basic lemmas -/

theorem matchesB_iff {Ty : Type} (issub : Ty → Ty → Bool) (sig args : List Ty) :
    matchesB issub sig args = true ↔ Matches issub sig args := by
  simp only [matchesB, Matches, Bool.and_eq_true, beq_iff_eq, List.all_eq_true,
    List.forall₂_iff_zip]
  constructor
  · rintro ⟨hl, hz⟩
    exact ⟨hl.symm, fun hm => hz _ hm⟩
  · rintro ⟨hl, hz⟩
    exact ⟨hl.symm, fun p hp => hz hp⟩

theorem resolve_cons {Ty Fn : Type} (issub : Ty → Ty → Bool)
    (e : List Ty × Fn) (rest : Table Ty Fn) (args : List Ty) :
    resolve issub (e :: rest) args =
      if matchesB issub e.1 args then Except.ok e.2 else resolve issub rest args := rfl

/-! ## C1: resolution scans in stored order -/

/-- C1: For every call with runtime argument types `args`, resolution scans
the table entries in their stored order and returns the implementation of
the first entry whose signature has the same arity as `args` and whose
declared type at every position is a supertype of or equal to the
corresponding runtime argument type; if no entry satisfies this, it fails
with the no-match error carrying the attempted argument types.  (The table
is unchanged: `resolve` only reads the entry list.) -/
theorem resolve_first_match {Ty Fn : Type} (issub : Ty → Ty → Bool)
    (table : Table Ty Fn) (args : List Ty) :
    (∀ f, resolve issub table args = Except.ok f ↔
      ∃ u e v, table = u ++ e :: v ∧ Matches issub e.1 args ∧ e.2 = f ∧
        ∀ x ∈ u, ¬ Matches issub x.1 args) ∧
    (resolve issub table args = Except.error args ↔
      ∀ e ∈ table, ¬ Matches issub e.1 args) ∧
    (∀ other, resolve issub table args = Except.error other → other = args) := by
  induction table with
  | nil =>
      refine ⟨fun f => ?_, ?_, ?_⟩
      · simp [resolve]
      · simp [resolve]
      · intro other h
        have h2 : args = other := by simpa [resolve] using h
        exact h2.symm
  | cons e rest ih =>
      obtain ⟨ih1, ih2, ih3⟩ := ih
      by_cases h : matchesB issub e.1 args = true
      · have hm : Matches issub e.1 args := (matchesB_iff issub e.1 args).1 h
        refine ⟨fun f => ?_, ?_, ?_⟩
        · rw [resolve_cons, if_pos h]
          constructor
          · intro hok
            exact ⟨[], e, rest, rfl, hm, Except.ok.inj hok, by simp⟩
          · rintro ⟨u, e2, v, hdec, hm2, hf, hu⟩
            cases u with
            | nil =>
                simp only [List.nil_append, List.cons.injEq] at hdec
                rw [← hf, hdec.1]
            | cons a u2 =>
                simp only [List.cons_append, List.cons.injEq] at hdec
                exact absurd (hdec.1 ▸ hm) (hu a (by simp))
        · rw [resolve_cons, if_pos h]
          constructor
          · intro hbad
            exact absurd hbad (by simp)
          · intro hall
            exact absurd hm (hall e (by simp))
        · intro other hbad
          rw [resolve_cons, if_pos h] at hbad
          exact absurd hbad (by simp)
      · have hnm : ¬ Matches issub e.1 args := by
          intro hc
          exact h ((matchesB_iff issub e.1 args).2 hc)
        have hstep : resolve issub (e :: rest) args = resolve issub rest args := by
          rw [resolve_cons, if_neg h]
        refine ⟨fun f => ?_, ?_, ?_⟩
        · rw [hstep, ih1 f]
          constructor
          · rintro ⟨u, e2, v, hdec, hm2, hf, hu⟩
            refine ⟨e :: u, e2, v, by simp [hdec], hm2, hf, ?_⟩
            intro x hx
            rcases List.mem_cons.1 hx with hx | hx
            · exact hx ▸ hnm
            · exact hu x hx
          · rintro ⟨u, e2, v, hdec, hm2, hf, hu⟩
            cases u with
            | nil =>
                simp only [List.nil_append, List.cons.injEq] at hdec
                exact absurd (hdec.1 ▸ hm2) hnm
            | cons a u2 =>
                simp only [List.cons_append, List.cons.injEq] at hdec
                exact ⟨u2, e2, v, hdec.2, hm2, hf, fun x hx => hu x (by simp [hx])⟩
        · rw [hstep, ih2]
          constructor
          · intro hall x hx
            rcases List.mem_cons.1 hx with hx | hx
            · exact hx ▸ hnm
            · exact hall x hx
          · intro hall x hx
            exact hall x (by simp [hx])
        · intro other hother
          exact ih3 other (hstep ▸ hother)

/-- Concrete instance of `resolve_first_match`: on the worked example
table, resolving `(str, int)` selects implementation 1, resolving
`(obj, obj)`-incompatible arity fails carrying the argument types. -/
theorem resolve_first_match_witness :
    resolve pyIssub (runRegs pyIssub PyTy.objT exampleRegs)
        [PyTy.strT, PyTy.intT] = Except.ok 1 ∧
    ([PyTy.strT] : List PyTy) = [PyTy.strT] := by
  have hm : Matches pyIssub [PyTy.strT, PyTy.intT] [PyTy.strT, PyTy.intT] :=
    (matchesB_iff pyIssub [PyTy.strT, PyTy.intT] [PyTy.strT, PyTy.intT]).1 (by decide)
  have hdec : runRegs pyIssub PyTy.objT exampleRegs =
      ([] : Table PyTy Nat) ++ ([PyTy.strT, PyTy.intT], 1) ::
        [([PyTy.strT, PyTy.strT], 2), ([PyTy.intT, PyTy.intT], 3),
         ([PyTy.intT, PyTy.strT], 3), ([PyTy.objT, PyTy.objT], 0)] := by decide
  constructor
  · exact ((resolve_first_match pyIssub (runRegs pyIssub PyTy.objT exampleRegs)
      [PyTy.strT, PyTy.intT]).1 1).2
      ⟨[], ([PyTy.strT, PyTy.intT], 1),
        [([PyTy.strT, PyTy.strT], 2), ([PyTy.intT, PyTy.intT], 3),
         ([PyTy.intT, PyTy.strT], 3), ([PyTy.objT, PyTy.objT], 0)],
        hdec, hm, rfl, by simp⟩
  · exact (resolve_first_match pyIssub ([([PyTy.intT], 0)] : Table PyTy Nat)
      [PyTy.strT]).2.2 [PyTy.strT] rfl

/-! ## C2: conflicting registration is rejected atomically -/

/-- C2: If the expanded signature batch of a registration contains at least
one signature already present in the table, registration fails with a
conflict error identifying the already-registered and the incoming
implementation, and the table is completely unchanged: no signature of the
batch is inserted, conflicting or not. -/
theorem register_conflict_atomic {Ty Fn : Type} [DecidableEq Ty]
    (issub : Ty → Ty → Bool) (obj : Ty) (t : Table Ty Fn)
    (params : List (Option (Hint Ty))) (fn : Fn)
    (h : ∃ sigs, get_signatures obj params = some sigs ∧
      ∃ s ∈ sigs, lookupFn t s ≠ none) :
    (register issub obj t params fn).1 = t ∧
    ∃ g sigs s, get_signatures obj params = some sigs ∧ s ∈ sigs ∧
      lookupFn t s = some g ∧
      (register issub obj t params fn).2 = some (RegError.conflict g fn) := by
  obtain ⟨sigs, hsigs, s, hs, hconf⟩ := h
  have hsome : (sigs.findSome? fun s => lookupFn t s).isSome := by
    rw [List.findSome?_isSome_iff]
    exact ⟨s, hs, Option.isSome_iff_ne_none.2 hconf⟩
  obtain ⟨g, hg⟩ := Option.isSome_iff_exists.1 hsome
  obtain ⟨s2, hs2, hls2⟩ := List.exists_of_findSome?_eq_some hg
  refine ⟨?_, g, sigs, s2, hsigs, hs2, hls2, ?_⟩
  · simp only [register, hsigs, hg]
  · simp only [register, hsigs, hg]

/-- Concrete instance of `register_conflict_atomic`: registering
`(int, int)` for implementation 7 when `(int, int)` is already bound to
implementation 5 leaves the table unchanged and reports the conflict. -/
theorem register_conflict_atomic_witness :
    (register pyIssub PyTy.objT ([([PyTy.intT, PyTy.intT], 5)] : Table PyTy Nat)
        [some (Hint.tyH PyTy.intT), some (Hint.tyH PyTy.intT)] 7).1 =
      [([PyTy.intT, PyTy.intT], 5)] ∧
    ∃ g sigs s,
      get_signatures PyTy.objT
          [some (Hint.tyH PyTy.intT), some (Hint.tyH PyTy.intT)] = some sigs ∧
      s ∈ sigs ∧
      lookupFn ([([PyTy.intT, PyTy.intT], 5)] : Table PyTy Nat) s = some g ∧
      (register pyIssub PyTy.objT ([([PyTy.intT, PyTy.intT], 5)] : Table PyTy Nat)
          [some (Hint.tyH PyTy.intT), some (Hint.tyH PyTy.intT)] 7).2 =
        some (RegError.conflict g 7) :=
  register_conflict_atomic pyIssub PyTy.objT _ _ 7
    ⟨[[PyTy.intT, PyTy.intT]], rfl, [PyTy.intT, PyTy.intT], by decide, by decide⟩

/-! ## C4: the strict order on signatures -/

theorem supercedes_iff_forall2 {Ty : Type} (issub : Ty → Ty → Bool)
    (a b : List Ty) (h : a.length = b.length) :
    supercedes issub a b = true ↔ List.Forall₂ (SubTy issub) a b := by
  simp only [supercedes, List.all_eq_true, List.forall₂_iff_zip, SubTy]
  constructor
  · intro hz
    exact ⟨h, fun hm => hz _ hm⟩
  · rintro ⟨hl, hz⟩
    exact fun p hp => hz hp

theorem forall2_sub_trans {Ty : Type} (issub : Ty → Ty → Bool)
    (htrans : ∀ a b c, issub a b = true → issub b c = true → issub a c = true) :
    ∀ {a b c : List Ty}, List.Forall₂ (SubTy issub) a b →
      List.Forall₂ (SubTy issub) b c → List.Forall₂ (SubTy issub) a c := by
  intro a b c hab hbc
  induction hab generalizing c with
  | nil =>
      cases hbc
      exact List.Forall₂.nil
  | cons h1 h2 ih =>
      cases hbc with
      | cons h3 h4 =>
          exact List.Forall₂.cons (htrans _ _ _ h1 h3) (ih h4)

theorem sigLt_length {Ty : Type} (issub : Ty → Ty → Bool) {a b : List Ty}
    (h : sigLt issub a b = true) : a.length = b.length := by
  by_contra hne
  simp [sigLt, hne] at h

theorem sigLt_iff {Ty : Type} (issub : Ty → Ty → Bool) {a b : List Ty} :
    sigLt issub a b = true ↔ a.length = b.length ∧
      supercedes issub a b = true ∧ supercedes issub b a = false := by
  constructor
  · intro h
    have hl := sigLt_length issub h
    simp only [sigLt, hl, ne_eq, not_true_eq_false, if_false,
      Bool.and_eq_true, Bool.not_eq_true'] at h
    exact ⟨hl, h.1, h.2⟩
  · rintro ⟨hl, h1, h2⟩
    simp [sigLt, hl, h1, h2]

theorem sigLt_irrefl {Ty : Type} (issub : Ty → Ty → Bool) (a : List Ty) :
    sigLt issub a a = false := by
  simp only [sigLt, ne_eq, not_true_eq_false, if_false]
  cases supercedes issub a a <;> rfl

theorem sigLt_asymm {Ty : Type} (issub : Ty → Ty → Bool) {a b : List Ty}
    (h : sigLt issub a b = true) : sigLt issub b a = false := by
  obtain ⟨hl, h1, h2⟩ := sigLt_iff issub |>.1 h
  simp [sigLt, hl.symm, h2]

theorem sigLt_trans {Ty : Type} (issub : Ty → Ty → Bool)
    (htrans : ∀ a b c, issub a b = true → issub b c = true → issub a c = true)
    {a b c : List Ty} (hab : sigLt issub a b = true)
    (hbc : sigLt issub b c = true) : sigLt issub a c = true := by
  obtain ⟨hl1, hs1, hn1⟩ := sigLt_iff issub |>.1 hab
  obtain ⟨hl2, hs2, hn2⟩ := sigLt_iff issub |>.1 hbc
  have hlac : a.length = c.length := hl1.trans hl2
  have hac : supercedes issub a c = true :=
    (supercedes_iff_forall2 issub a c hlac).2
      (forall2_sub_trans issub htrans
        ((supercedes_iff_forall2 issub a b hl1).1 hs1)
        ((supercedes_iff_forall2 issub b c hl2).1 hs2))
  have hca : supercedes issub c a = false := by
    by_contra hc
    have hca2 : supercedes issub c a = true := by
      cases hval : supercedes issub c a
      · exact absurd hval hc
      · rfl
    have hcb : supercedes issub c b = true :=
      (supercedes_iff_forall2 issub c b hl2.symm).2
        (forall2_sub_trans issub htrans
          ((supercedes_iff_forall2 issub c a hlac.symm).1 hca2)
          ((supercedes_iff_forall2 issub a b hl1).1 hs1))
    rw [hcb] at hn2
    exact absurd hn2 (by simp)
  exact (sigLt_iff issub).2 ⟨hlac, hac, hca⟩

/-- C4: the strict comparison on signatures is a strict partial order:
irreflexive, asymmetric on same-arity signatures, and transitive whenever
the underlying subclass relation is transitive (as Python's `issubclass`
is). -/
theorem sigLt_strict_order {Ty : Type} (issub : Ty → Ty → Bool)
    (htrans : ∀ a b c, issub a b = true → issub b c = true → issub a c = true) :
    (∀ a : List Ty, sigLt issub a a = false) ∧
    (∀ a b : List Ty, a.length = b.length →
      ¬(sigLt issub a b = true ∧ sigLt issub b a = true)) ∧
    (∀ a b c : List Ty, sigLt issub a b = true → sigLt issub b c = true →
      sigLt issub a c = true) := by
  refine ⟨sigLt_irrefl issub, ?_, fun a b c => sigLt_trans issub htrans⟩
  rintro a b _ ⟨h1, h2⟩
  rw [sigLt_asymm issub h1] at h2
  exact absurd h2 (by simp)

/-- Concrete instance of `sigLt_strict_order` on the `PyTy` universe. -/
theorem sigLt_strict_order_witness :
    sigLt pyIssub [PyTy.intT, PyTy.strT] [PyTy.intT, PyTy.strT] = false ∧
    ¬(sigLt pyIssub [PyTy.intT] [PyTy.strT] = true ∧
      sigLt pyIssub [PyTy.strT] [PyTy.intT] = true) ∧
    sigLt pyIssub [PyTy.intT] [PyTy.objT] = true := by
  have h := sigLt_strict_order pyIssub (by decide)
  refine ⟨h.1 [PyTy.intT, PyTy.strT], h.2.1 [PyTy.intT] [PyTy.strT] rfl, by decide⟩

/-! ## C6: supercedes on arity mismatch (corrected) -/

/-- C6 counterexample: for the different-arity pair `(int)` and
`(int, str)`, `supercedes` returns `True`, not `False`: `all(map(...))`
truncates to the shorter tuple. -/
theorem supercedes_arity_cex :
    supercedes pyIssub [PyTy.intT] [PyTy.intT, PyTy.strT] = true ∧
    ([PyTy.intT] : List PyTy).length ≠ [PyTy.intT, PyTy.strT].length := by
  exact ⟨by decide, by decide⟩

theorem supercedes_prefix_check {Ty : Type} (issub : Ty → Ty → Bool) :
    ∀ a b : List Ty, supercedes issub a b = true ↔
      ∀ i (h1 : i < a.length) (h2 : i < b.length),
        issub (a.get ⟨i, h1⟩) (b.get ⟨i, h2⟩) = true := by
  intro a
  induction a with
  | nil =>
      intro b
      simp [supercedes]
  | cons x xs ih =>
      intro b
      cases b with
      | nil =>
          simp [supercedes]
      | cons y ys =>
          simp only [supercedes, List.zip_cons_cons, List.all_cons,
            Bool.and_eq_true]
          constructor
          · rintro ⟨h1, h2⟩ i hi1 hi2
            cases i with
            | zero => exact h1
            | succ n =>
                exact ((ih ys).1 h2) n (Nat.lt_of_succ_lt_succ hi1)
                  (Nat.lt_of_succ_lt_succ hi2)
          · intro h
            refine ⟨h 0 (by simp) (by simp), (ih ys).2 ?_⟩
            intro n hn1 hn2
            exact h (n + 1) (Nat.succ_lt_succ hn1) (Nat.succ_lt_succ hn2)

/-- C6 amended: `supercedes` never raises, but on an arity mismatch it does
not return `False` in general: it tests the positional subtype condition
over the common prefix of the two signatures (it is the strict comparison
`__lt__`, not `supercedes`, that returns `False` whenever arities differ).
With equal arities it returns the pointwise subtype-or-equal test, as the
claim states. -/
theorem supercedes_arity_amended {Ty : Type} (issub : Ty → Ty → Bool) :
    (∀ a b : List Ty, supercedes issub a b = true ↔
      ∀ i (h1 : i < a.length) (h2 : i < b.length),
        issub (a.get ⟨i, h1⟩) (b.get ⟨i, h2⟩) = true) ∧
    (∀ a b : List Ty, a.length ≠ b.length → sigLt issub a b = false) ∧
    (∀ a b : List Ty, a.length = b.length →
      (supercedes issub a b = true ↔ List.Forall₂ (SubTy issub) a b)) := by
  refine ⟨supercedes_prefix_check issub, ?_, supercedes_iff_forall2 issub⟩
  intro a b hne
  simp [sigLt, hne]

/-- Concrete instance of `supercedes_arity_amended`. -/
theorem supercedes_arity_amended_witness :
    sigLt pyIssub [PyTy.intT] [PyTy.intT, PyTy.strT] = false ∧
    (supercedes pyIssub [PyTy.intT, PyTy.strT] [PyTy.objT, PyTy.objT] = true ↔
      List.Forall₂ (SubTy pyIssub) [PyTy.intT, PyTy.strT] [PyTy.objT, PyTy.objT]) :=
  ⟨(supercedes_arity_amended pyIssub).2.1 [PyTy.intT] [PyTy.intT, PyTy.strT]
      (by decide),
    (supercedes_arity_amended pyIssub).2.2 [PyTy.intT, PyTy.strT]
      [PyTy.objT, PyTy.objT] rfl⟩

/-! ## C5: union expansion is the Cartesian product -/

theorem cart_length {α : Type} :
    ∀ ls : List (List α), (cart ls).length = (ls.map List.length).prod := by
  intro ls
  induction ls with
  | nil => simp [cart]
  | cons ts rest ih =>
      simp only [cart, List.length_flatMap, List.map_map, Function.comp_def,
        List.length_map, ih, List.map_const', List.sum_replicate, smul_eq_mul,
        List.map_cons, List.prod_cons]

theorem cart_mem {α : Type} :
    ∀ (ls : List (List α)) (s : List α),
      s ∈ cart ls ↔ List.Forall₂ (fun t ts => t ∈ ts) s ls := by
  intro ls
  induction ls with
  | nil =>
      intro s
      simp [cart, List.forall₂_nil_right_iff]
  | cons ts rest ih =>
      intro s
      simp only [cart, List.mem_flatMap, List.mem_map, List.forall₂_cons_right_iff]
      constructor
      · rintro ⟨t, ht, s2, hs2, rfl⟩
        exact ⟨t, s2, ht, (ih s2).1 hs2, rfl⟩
      · rintro ⟨t, s2, ht, hs2, rfl⟩
        exact ⟨t, ht, s2, (ih s2).2 hs2, rfl⟩

theorem cart_nodup {α : Type} :
    ∀ ls : List (List α), (∀ l ∈ ls, l.Nodup) → (cart ls).Nodup := by
  intro ls
  induction ls with
  | nil =>
      intro _
      simp [cart]
  | cons ts rest ih =>
      intro hnd
      have hts : ts.Nodup := hnd ts (by simp)
      have hrest : (cart rest).Nodup := ih fun l hl => hnd l (by simp [hl])
      simp only [cart]
      rw [List.nodup_flatMap]
      refine ⟨fun t _ => hrest.map fun s1 s2 h => by injection h, ?_⟩
      refine hts.imp ?_
      intro t1 t2 hne
      rw [Function.onFun, List.disjoint_left]
      rintro x h1 h2
      obtain ⟨s1, _, rfl⟩ := List.mem_map.1 h1
      obtain ⟨s2, _, heq⟩ := List.mem_map.1 h2
      injection heq with heq1 _
      exact hne heq1.symm

theorem unpack_eq_cart {Ty : Type} (obj : Ty) :
    ∀ (ps : List (Option (Hint Ty))) (p : Option (Hint Ty)),
      unpack_signatures obj p ps = cart ((p :: ps).map (specOfHint obj)) := by
  intro ps
  induction ps with
  | nil =>
      intro p
      simp only [unpack_signatures, List.map_cons, List.map_nil, cart]
      rw [List.flatMap_congr]
      · rw [← List.flatMap_singleton' ((specOfHint obj p).map fun t => [t]),
          List.flatMap_map]
      · intro t _
        rfl
  | cons a rest ih =>
      intro p
      simp only [unpack_signatures, List.map_cons, cart, ih a, List.map_cons]

/-- C5: union expansion of an n-position spec list with per-position type
lists of sizes k1, ..., kn yields exactly k1 * ... * kn concrete
signatures, each of arity n, pairwise distinct (given that each position
lists distinct types, as Python's `Union` guarantees), covering exactly the
combinations of one declared type per position, and in the deterministic
Cartesian-product order `cart`: left-to-right position order, per-position
declared order. -/
theorem unpack_union_product {Ty : Type} (obj : Ty) (p : Option (Hint Ty))
    (ps : List (Option (Hint Ty)))
    (hnd : ∀ q ∈ p :: ps, (specOfHint obj q).Nodup) :
    unpack_signatures obj p ps = cart ((p :: ps).map (specOfHint obj)) ∧
    (unpack_signatures obj p ps).length =
      (((p :: ps).map (specOfHint obj)).map List.length).prod ∧
    (∀ s ∈ unpack_signatures obj p ps, s.length = ps.length + 1) ∧
    (unpack_signatures obj p ps).Nodup ∧
    (∀ s, s ∈ unpack_signatures obj p ps ↔
      List.Forall₂ (fun t ts => t ∈ ts) s ((p :: ps).map (specOfHint obj))) := by
  have hs := unpack_eq_cart obj ps p
  refine ⟨hs, ?_, ?_, ?_, ?_⟩
  · rw [hs, cart_length]
  · intro s hmem
    rw [hs] at hmem
    have h2 := (cart_mem _ s).1 hmem
    have := h2.length_eq
    simpa using this
  · rw [hs]
    refine cart_nodup _ ?_
    intro l hl
    obtain ⟨q, hq, rfl⟩ := List.mem_map.1 hl
    exact hnd q hq
  · intro s
    rw [hs]
    exact cart_mem _ s

/-- Concrete instance of `unpack_union_product`: expanding
`(Union[int, str], Union[int, str])` yields the four signatures of the
2 * 2 Cartesian product. -/
theorem unpack_union_product_witness :
    unpack_signatures PyTy.objT (some (Hint.unionH [PyTy.intT, PyTy.strT]))
        [some (Hint.unionH [PyTy.intT, PyTy.strT])] =
      [[PyTy.intT, PyTy.intT], [PyTy.intT, PyTy.strT],
       [PyTy.strT, PyTy.intT], [PyTy.strT, PyTy.strT]] ∧
    (unpack_signatures PyTy.objT (some (Hint.unionH [PyTy.intT, PyTy.strT]))
        [some (Hint.unionH [PyTy.intT, PyTy.strT])]).length = 4 ∧
    (unpack_signatures PyTy.objT (some (Hint.unionH [PyTy.intT, PyTy.strT]))
        [some (Hint.unionH [PyTy.intT, PyTy.strT])]).Nodup := by
  have h := unpack_union_product PyTy.objT
    (some (Hint.unionH [PyTy.intT, PyTy.strT]))
    [some (Hint.unionH [PyTy.intT, PyTy.strT])] (by decide)
  exact ⟨by decide, by decide, h.2.2.2.1⟩

/-! ## C3: the table is a linearization of the specificity order -/

theorem insertOne_eq_takeDrop {Ty Fn : Type} (issub : Ty → Ty → Bool) :
    ∀ (t : Table Ty Fn) (e : List Ty × Fn),
      insertOne issub t e =
        t.takeWhile (fun it => !sigLt issub e.1 it.1) ++
          e :: t.dropWhile (fun it => !sigLt issub e.1 it.1) := by
  intro t e
  induction t with
  | nil => rfl
  | cons x rest ih =>
      by_cases h : sigLt issub e.1 x.1 = true
      · simp [insertOne, h, List.takeWhile_cons, List.dropWhile_cons]
      · have h2 : sigLt issub e.1 x.1 = false := by
          cases hv : sigLt issub e.1 x.1
          · rfl
          · exact absurd hv h
        simp [insertOne, h2, List.takeWhile_cons, List.dropWhile_cons, ih]

theorem mem_insertOne {Ty Fn : Type} (issub : Ty → Ty → Bool) :
    ∀ (t : Table Ty Fn) (e x : List Ty × Fn),
      x ∈ insertOne issub t e ↔ x = e ∨ x ∈ t := by
  intro t e x
  rw [insertOne_eq_takeDrop]
  constructor
  · intro h
    rcases List.mem_append.1 h with h | h
    · exact Or.inr ((List.takeWhile_sublist _).mem h)
    · rcases List.mem_cons.1 h with h | h
      · exact Or.inl h
      · exact Or.inr ((List.dropWhile_sublist _).mem h)
  · intro h
    rcases h with rfl | h
    · exact List.mem_append.2 (Or.inr (by simp))
    · rw [← List.takeWhile_append_dropWhile
        (p := fun it => !sigLt issub e.1 it.1) (l := t)] at h
      rcases List.mem_append.1 h with h | h
      · exact List.mem_append.2 (Or.inl h)
      · exact List.mem_append.2 (Or.inr (by simp [h]))

theorem insertOne_pairwise {Ty Fn : Type} (issub : Ty → Ty → Bool)
    (htrans : ∀ a b c, issub a b = true → issub b c = true → issub a c = true)
    {t : Table Ty Fn}
    (h : List.Pairwise (fun a b => sigLt issub b.1 a.1 = false) t)
    (e : List Ty × Fn) :
    List.Pairwise (fun a b => sigLt issub b.1 a.1 = false)
      (insertOne issub t e) := by
  induction t with
  | nil => simp [insertOne]
  | cons x rest ih =>
      obtain ⟨hhead, htail⟩ := List.pairwise_cons.1 h
      by_cases hlt : sigLt issub e.1 x.1 = true
      · rw [insertOne, if_pos hlt]
        refine List.pairwise_cons.2 ⟨?_, h⟩
        intro y hy
        rcases List.mem_cons.1 hy with rfl | hy
        · exact sigLt_asymm issub hlt
        · by_contra hbad
          have hy2 : sigLt issub y.1 e.1 = true := by
            cases hv : sigLt issub y.1 e.1
            · exact absurd hv hbad
            · rfl
          have : sigLt issub y.1 x.1 = true := sigLt_trans issub htrans hy2 hlt
          rw [hhead y hy] at this
          exact absurd this (by simp)
      · have hlt2 : sigLt issub e.1 x.1 = false := by
          cases hv : sigLt issub e.1 x.1
          · rfl
          · exact absurd hv hlt
        rw [insertOne, if_neg hlt]
        refine List.pairwise_cons.2 ⟨?_, ih htail⟩
        intro y hy
        rcases (mem_insertOne issub rest e y).1 hy with rfl | hy
        · exact hlt2
        · exact hhead y hy

theorem dictInsert_keys {K V : Type} [DecidableEq K] (d : List (K × V))
    (kv : K × V) :
    (dictInsert d kv).map Prod.fst =
      if d.any fun e => decide (e.1 = kv.1) then d.map Prod.fst
      else d.map Prod.fst ++ [kv.1] := by
  by_cases h : (d.any fun e => decide (e.1 = kv.1)) = true
  · rw [dictInsert, if_pos h, if_pos h, List.map_map]
    refine List.map_congr_left ?_
    intro e _
    by_cases he : e.1 = kv.1
    · simp [Function.comp, he]
    · simp [Function.comp, he]
  · rw [dictInsert, if_neg h, if_neg h]
    simp

theorem foldl_dictInsert_keys_sublist {K V : Type} [DecidableEq K] :
    ∀ (l d : List (K × V)),
      ((l.foldl dictInsert d).map Prod.fst).Sublist
        (d.map Prod.fst ++ l.map Prod.fst) := by
  intro l
  induction l with
  | nil =>
      intro d
      simp
  | cons kv rest ih =>
      intro d
      refine (ih (dictInsert d kv)).trans ?_
      rw [dictInsert_keys]
      by_cases h : (d.any fun e => decide (e.1 = kv.1)) = true
      · rw [if_pos h]
        simp only [List.map_cons]
        refine List.Sublist.append (List.Sublist.refl _) ?_
        exact List.sublist_cons_self _ _
      · rw [if_neg h]
        simp only [List.map_cons, List.append_assoc, List.singleton_append]
        exact List.Sublist.refl _

theorem listToDict_keys_sublist {K V : Type} [DecidableEq K]
    (l : List (K × V)) :
    ((listToDict l).map Prod.fst).Sublist (l.map Prod.fst) := by
  simpa using foldl_dictInsert_keys_sublist l []

theorem linearized_listToDict {Ty Fn : Type} [DecidableEq Ty]
    (issub : Ty → Ty → Bool) {t : Table Ty Fn} (h : Linearized issub t) :
    Linearized issub (listToDict t) :=
  List.Pairwise.sublist (listToDict_keys_sublist t) h

theorem linearized_addItems {Ty Fn : Type} [DecidableEq Ty]
    (issub : Ty → Ty → Bool)
    (htrans : ∀ a b c, issub a b = true → issub b c = true → issub a c = true)
    {t : Table Ty Fn} (h : Linearized issub t) (new : List (List Ty × Fn)) :
    Linearized issub (addItems issub t new) := by
  refine linearized_listToDict issub ?_
  rw [Linearized, List.pairwise_map]
  rw [Linearized, List.pairwise_map] at h
  induction new generalizing t with
  | nil => exact h
  | cons e rest ih =>
      exact ih (insertOne_pairwise issub htrans h e)

theorem linearized_register {Ty Fn : Type} [DecidableEq Ty]
    (issub : Ty → Ty → Bool) (obj : Ty)
    (htrans : ∀ a b c, issub a b = true → issub b c = true → issub a c = true)
    {t : Table Ty Fn} (h : Linearized issub t)
    (params : List (Option (Hint Ty))) (fn : Fn) :
    Linearized issub (register issub obj t params fn).1 := by
  rw [register]
  cases get_signatures obj params with
  | none => exact h
  | some sigs =>
      cases hf : sigs.findSome? fun s => lookupFn t s with
      | some g =>
          simp only [hf]
          exact h
      | none =>
          simp only [hf]
          exact linearized_addItems issub htrans h _

/-- C3: after every sequence of registrations the table is a valid
linearization of the strict specificity order (whenever `X < Y` holds
between stored signatures, `X` is stored before `Y`), provided the
underlying subclass relation is transitive; and the insertion step places
each new entry immediately before the first existing entry its signature is
strictly less than (at the end otherwise), keeping already-present entries
in their relative order. -/
theorem table_respects_specificity {Ty Fn : Type} [DecidableEq Ty]
    (issub : Ty → Ty → Bool) (obj : Ty)
    (htrans : ∀ a b c, issub a b = true → issub b c = true → issub a c = true) :
    (∀ regs : List (List (Option (Hint Ty)) × Fn),
      Linearized issub (runRegs issub obj regs)) ∧
    (∀ (t : Table Ty Fn) (e : List Ty × Fn),
      insertOne issub t e =
        t.takeWhile (fun it => !sigLt issub e.1 it.1) ++
          e :: t.dropWhile (fun it => !sigLt issub e.1 it.1)) := by
  refine ⟨?_, insertOne_eq_takeDrop issub⟩
  intro regs
  rw [runRegs]
  have hgen : ∀ (t : Table Ty Fn), Linearized issub t →
      Linearized issub
        (regs.foldl (fun t r => (register issub obj t r.1 r.2).1) t) := by
    induction regs with
    | nil => exact fun t ht => ht
    | cons r rest ih =>
        intro t ht
        exact ih _ (linearized_register issub obj htrans ht r.1 r.2)
  exact hgen [] (by simp [Linearized])

/-- Concrete instance of `table_respects_specificity` on the worked
example registrations. -/
theorem table_respects_specificity_witness :
    Linearized pyIssub (runRegs pyIssub PyTy.objT exampleRegs) ∧
    insertOne pyIssub
        ([([PyTy.objT, PyTy.objT], 0)] : Table PyTy Nat)
        ([PyTy.strT, PyTy.intT], 1) =
      [([PyTy.strT, PyTy.intT], 1), ([PyTy.objT, PyTy.objT], 0)] :=
  ⟨(table_respects_specificity pyIssub PyTy.objT (by decide)).1 exampleRegs,
    by
      rw [(table_respects_specificity pyIssub PyTy.objT (by decide)).2]
      decide⟩

/-! ## C8: the worked dispatch example -/

/-- C8: after registering, in order, implementations for
`(object, object)`, `(str, int)`, `(str, str)` and `(int, Union[int, str])`
into one empty dispatch table (all four registrations succeeding),
resolving the argument types of the call `("a", 1)` — a `str` and an
`int` — selects the implementation registered for `(str, int)`
(handle 1). -/
theorem example_dispatch_str_int :
    regsOk pyIssub PyTy.objT exampleRegs = true ∧
    resolve pyIssub (runRegs pyIssub PyTy.objT exampleRegs)
      [PyTy.strT, PyTy.intT] = Except.ok 1 := by
  exact ⟨by decide, rfl⟩

/-! ## C9: missing and Any annotations behave as object -/

theorem set_self_of_get {α : Type} (l : List α) (i : Nat) (a : α)
    (h : i < l.length) (ha : l.get ⟨i, h⟩ = a) : l.set i a = l := by
  apply List.ext_getElem
  · simp
  · intro n h1 h2
    rw [List.getElem_set]
    by_cases hn : i = n
    · subst hn
      rw [if_pos rfl, ← ha]
      exact List.get_eq_getElem l ⟨i, h⟩
    · rw [if_neg hn]

theorem get_signatures_eq_of_specs_eq {Ty : Type} (obj : Ty)
    {params1 params2 : List (Option (Hint Ty))}
    (h : params1.map (specOfHint obj) = params2.map (specOfHint obj)) :
    get_signatures obj params1 = get_signatures obj params2 := by
  cases params1 with
  | nil =>
      cases params2 with
      | nil => rfl
      | cons q qs => simp at h
  | cons p ps =>
      cases params2 with
      | nil => simp at h
      | cons q qs =>
          rw [get_signatures, get_signatures, unpack_eq_cart, unpack_eq_cart, h]

/-- C9: a parameter with no annotation, or annotated `Any`, contributes the
same concrete types (`[object]`) and hence the same expanded signatures as
one annotated `object`; and during resolution a declared `object` position
accepts every runtime argument type, so such positions never block a
match. -/
theorem untyped_params_as_object {Ty : Type} [DecidableEq Ty]
    (issub : Ty → Ty → Bool) (obj : Ty)
    (hobj : ∀ t, issub t obj = true) :
    (specOfHint obj (none : Option (Hint Ty)) = [obj] ∧
     specOfHint obj (some Hint.anyH) = [obj] ∧
     specOfHint obj (some (Hint.tyH obj)) = [obj]) ∧
    (∀ (params : List (Option (Hint Ty))) (i : Nat) (h : i < params.length),
      (params.get ⟨i, h⟩ = none ∨ params.get ⟨i, h⟩ = some Hint.anyH) →
      get_signatures obj params =
        get_signatures obj (params.set i (some (Hint.tyH obj)))) ∧
    (∀ sig args : List Ty,
      List.Forall₂ (fun s a => s = obj ∨ issub a s = true) sig args →
      matchesB issub sig args = true) := by
  refine ⟨⟨rfl, rfl, rfl⟩, ?_, ?_⟩
  · intro params i h hcase
    apply get_signatures_eq_of_specs_eq
    rw [List.map_set]
    refine (set_self_of_get _ i _ (by simpa using h) ?_).symm
    rw [List.get_eq_getElem, List.getElem_map]
    have hget : params[i] = params.get ⟨i, h⟩ := rfl
    rw [hget]
    rcases hcase with hc | hc <;> rw [hc] <;> rfl
  · intro sig args hall
    apply (matchesB_iff issub sig args).2
    rw [Matches]
    induction hall with
    | nil => exact List.Forall₂.nil
    | cons h1 h2 ih =>
        refine List.Forall₂.cons ?_ ih
        rcases h1 with rfl | h1
        · exact hobj _
        · exact h1

/-- Concrete instance of `untyped_params_as_object`: an unannotated
parameter and an `Any` parameter expand exactly as `object`, and an
`(object, object)` entry matches `(str, int)` arguments. -/
theorem untyped_params_as_object_witness :
    get_signatures PyTy.objT [none, some Hint.anyH] =
      get_signatures PyTy.objT
        ([none, some Hint.anyH].set 0 (some (Hint.tyH PyTy.objT))) ∧
    matchesB pyIssub [PyTy.objT, PyTy.objT] [PyTy.strT, PyTy.intT] = true := by
  have h := untyped_params_as_object pyIssub PyTy.objT (by decide)
  refine ⟨h.2.1 [none, some Hint.anyH] 0 (by decide) (Or.inl rfl), ?_⟩
  refine h.2.2 [PyTy.objT, PyTy.objT] [PyTy.strT, PyTy.intT] ?_
  exact List.Forall₂.cons (Or.inl rfl) (List.Forall₂.cons (Or.inl rfl) List.Forall₂.nil)

/-! ## C10: zero-parameter implementations are rejected -/

theorem unpack_arity {Ty : Type} (obj : Ty) (p : Option (Hint Ty))
    (ps : List (Option (Hint Ty))) :
    ∀ s ∈ unpack_signatures obj p ps, s.length = ps.length + 1 := by
  intro s hs
  rw [unpack_eq_cart] at hs
  have h := (cart_mem _ s).1 hs
  simpa using h.length_eq

theorem mem_foldl_insertOne {Ty Fn : Type} (issub : Ty → Ty → Bool) :
    ∀ (new : List (List Ty × Fn)) (t : Table Ty Fn) (x : List Ty × Fn),
      x ∈ new.foldl (insertOne issub) t → x ∈ t ∨ x ∈ new := by
  intro new
  induction new with
  | nil =>
      intro t x h
      exact Or.inl h
  | cons e rest ih =>
      intro t x h
      rcases ih _ x h with h2 | h2
      · rcases (mem_insertOne issub t e x).1 h2 with rfl | h3
        · exact Or.inr (by simp)
        · exact Or.inl h3
      · exact Or.inr (by simp [h2])

theorem key_mem_listToDict {K V : Type} [DecidableEq K] (l : List (K × V))
    (e : K × V) (h : e ∈ listToDict l) : e.1 ∈ l.map Prod.fst :=
  (listToDict_keys_sublist l).mem (List.mem_map_of_mem Prod.fst h)

theorem register_preserves_min_arity {Ty Fn : Type} [DecidableEq Ty]
    (issub : Ty → Ty → Bool) (obj : Ty) {t : Table Ty Fn}
    (ht : ∀ e ∈ t, 1 ≤ e.1.length) (params : List (Option (Hint Ty))) (fn : Fn) :
    ∀ e ∈ (register issub obj t params fn).1, 1 ≤ e.1.length := by
  rw [register]
  cases params with
  | nil => exact ht
  | cons p ps =>
      rw [get_signatures]
      cases hf : (unpack_signatures obj p ps).findSome? fun s => lookupFn t s with
      | some g =>
          simp only [hf]
          exact ht
      | none =>
          simp only [hf]
          intro e he
          rw [addItems] at he
          have hkey := key_mem_listToDict _ e he
          obtain ⟨x, hx, hxe⟩ := List.mem_map.1 hkey
          rcases mem_foldl_insertOne issub _ _ x hx with h2 | h2
          · rw [← hxe]
            exact ht x h2
          · obtain ⟨s, hs, rfl⟩ := List.mem_map.1 h2
            rw [← hxe]
            rw [unpack_arity obj p ps s hs]
            exact Nat.succ_le_succ (Nat.zero_le _)

/-- C10: a zero-parameter implementation can never be registered: the
registration (also the one performed by the constructor, which is the same
`register` call) fails before any table mutation, and consequently every
signature ever stored in a reachable table has arity at least 1. -/
theorem no_zero_arity_registration {Ty Fn : Type} [DecidableEq Ty]
    (issub : Ty → Ty → Bool) (obj : Ty) :
    (∀ (t : Table Ty Fn) (fn : Fn),
      register issub obj t [] fn = (t, some RegError.noParams)) ∧
    (∀ regs : List (List (Option (Hint Ty)) × Fn),
      ∀ e ∈ runRegs issub obj regs, 1 ≤ e.1.length) := by
  refine ⟨fun t fn => rfl, ?_⟩
  intro regs
  rw [runRegs]
  have hgen : ∀ (t : Table Ty Fn), (∀ e ∈ t, 1 ≤ e.1.length) →
      ∀ e ∈ regs.foldl (fun t r => (register issub obj t r.1 r.2).1) t,
        1 ≤ e.1.length := by
    induction regs with
    | nil => exact fun t ht => ht
    | cons r rest ih =>
        intro t ht
        exact ih _ (register_preserves_min_arity issub obj ht r.1 r.2)
  exact hgen [] (by simp)

/-- Concrete instance of `no_zero_arity_registration`. -/
theorem no_zero_arity_registration_witness :
    register pyIssub PyTy.objT ([([PyTy.intT], 4)] : Table PyTy Nat) [] 9 =
      ([([PyTy.intT], 4)], some RegError.noParams) ∧
    ∀ e ∈ runRegs pyIssub PyTy.objT exampleRegs, 1 ≤ e.1.length :=
  ⟨(no_zero_arity_registration pyIssub PyTy.objT).1 [([PyTy.intT], 4)] 9,
    (no_zero_arity_registration pyIssub PyTy.objT).2 exampleRegs⟩

/-! ## C7: incomparable signatures and insertion order (corrected) -/

/-- C7 counterexample: `(Plant,)` and `(Dog,)` are mutually incomparable,
unequal, same-arity signatures; `(Plant,)` is registered before `(Dog,)`
(the only other registration, `(Animal,)`, happens before both), all three
registrations succeed, yet the later-inserted `(Dog,)` ends up earlier in
the table than `(Plant,)` — because `(Dog,) < (Animal,)` pulls it to the
front — and a call whose argument type `PD` (a subclass of both `Dog` and
`Plant`) matches both selects the later-inserted `(Dog,)` implementation
(handle 2), not the earlier-inserted `(Plant,)` one (handle 1). -/
theorem incomparable_pair_cex :
    (sigLt vIssub [VTy.plant] [VTy.dog] = false ∧
     sigLt vIssub [VTy.dog] [VTy.plant] = false ∧
     ([VTy.plant] : List VTy) ≠ [VTy.dog]) ∧
    regsOk vIssub VTy.objV cexRegs = true ∧
    runRegs vIssub VTy.objV cexRegs =
      [([VTy.dog], 2), ([VTy.animal], 0), ([VTy.plant], 1)] ∧
    matchesB vIssub [VTy.plant] [VTy.pd] = true ∧
    matchesB vIssub [VTy.dog] [VTy.pd] = true ∧
    resolve vIssub (runRegs vIssub VTy.objV cexRegs) [VTy.pd] =
      Except.ok 2 := by
  exact ⟨by decide, by decide, by decide, by decide, by decide, rfl⟩

/-- The parameter hint list of an implementation declared with exactly the
plain types of the signature `s`, one per position. -/
def specsOfSig {Ty : Type} (s : List Ty) : List (Option (Hint Ty)) :=
  s.map fun t => some (Hint.tyH t)

theorem cart_singletons {α : Type} :
    ∀ l : List α, cart (l.map fun x => [x]) = [l] := by
  intro l
  induction l with
  | nil => rfl
  | cons x xs ih => simp [cart, ih]

theorem get_signatures_specsOfSig {Ty : Type} (obj : Ty) (A : List Ty)
    (hA : A ≠ []) : get_signatures obj (specsOfSig A) = some [A] := by
  cases A with
  | nil => exact absurd rfl hA
  | cons a as =>
      rw [specsOfSig, List.map_cons, get_signatures, unpack_eq_cart]
      have hmap : ((some (Hint.tyH a) :: as.map fun t => some (Hint.tyH t)).map
          (specOfHint obj)) = (a :: as).map fun x => [x] := by
        simp [specOfHint, List.map_map, Function.comp_def]
      rw [hmap, cart_singletons]

theorem register_single {Ty Fn : Type} [DecidableEq Ty]
    (issub : Ty → Ty → Bool) (obj : Ty) (t : Table Ty Fn) (A : List Ty)
    (hA : A ≠ []) (fA : Fn) (hfree : lookupFn t A = none) :
    register issub obj t (specsOfSig A) fA =
      (listToDict (insertOne issub t (A, fA)), none) := by
  rw [register, get_signatures_specsOfSig obj A hA]
  have hfind : ([A].findSome? fun s => lookupFn t s) = none := by
    simp [List.findSome?_cons, hfree]
  simp only [hfind]
  rfl

theorem insertOne_point {Ty Fn : Type} (issub : Ty → Ty → Bool)
    (e y : List Ty × Fn) :
    ∀ v w : Table Ty Fn, ∃ v2 w2,
      insertOne issub (v ++ y :: w) e = v2 ++ y :: w2 := by
  intro v
  induction v with
  | nil =>
      intro w
      by_cases h : sigLt issub e.1 y.1 = true
      · exact ⟨[e], w, by simp [insertOne, h]⟩
      · have h2 : sigLt issub e.1 y.1 = false := by
          cases hv : sigLt issub e.1 y.1
          · rfl
          · exact absurd hv h
        exact ⟨[], insertOne issub w e, by simp [insertOne, h2]⟩
  | cons a v ih =>
      intro w
      by_cases h : sigLt issub e.1 a.1 = true
      · exact ⟨e :: a :: v, w, by simp [insertOne, h]⟩
      · have h2 : sigLt issub e.1 a.1 = false := by
          cases hv : sigLt issub e.1 a.1
          · rfl
          · exact absurd hv h
        obtain ⟨v2, w2, hvw⟩ := ih w
        exact ⟨a :: v2, w2, by simp [insertOne, h2, hvw]⟩

theorem insertOne_two_points {Ty Fn : Type} (issub : Ty → Ty → Bool)
    (e x y : List Ty × Fn) :
    ∀ u v w : Table Ty Fn, ∃ u2 v2 w2,
      insertOne issub (u ++ x :: v ++ y :: w) e = u2 ++ x :: v2 ++ y :: w2 := by
  intro u
  induction u with
  | nil =>
      intro v w
      by_cases h : sigLt issub e.1 x.1 = true
      · exact ⟨[e], v, w, by simp [insertOne, h]⟩
      · have h2 : sigLt issub e.1 x.1 = false := by
          cases hv : sigLt issub e.1 x.1
          · rfl
          · exact absurd hv h
        obtain ⟨v2, w2, hvw⟩ := insertOne_point issub e y v w
        exact ⟨[], v2, w2, by simp [insertOne, h2, hvw]⟩
  | cons a u ih =>
      intro v w
      by_cases h : sigLt issub e.1 a.1 = true
      · exact ⟨e :: a :: u, v, w, by simp [insertOne, h]⟩
      · have h2 : sigLt issub e.1 a.1 = false := by
          cases hv : sigLt issub e.1 a.1
          · rfl
          · exact absurd hv h
        obtain ⟨u2, v2, w2, huvw⟩ := ih v w
        refine ⟨a :: u2, v2, w2, ?_⟩
        simp only [List.cons_append]
        rw [show insertOne issub (a :: (u ++ x :: v ++ y :: w)) e =
              a :: insertOne issub (u ++ x :: v ++ y :: w) e by
            simp only [insertOne, h2, Bool.false_eq_true, if_false]]
        rw [huvw]

theorem foldl_insertOne_two_points {Ty Fn : Type} (issub : Ty → Ty → Bool)
    (x y : List Ty × Fn) :
    ∀ (es : List (List Ty × Fn)) (u v w : Table Ty Fn),
      ∃ u2 v2 w2,
        es.foldl (insertOne issub) (u ++ x :: v ++ y :: w) =
          u2 ++ x :: v2 ++ y :: w2 := by
  intro es
  induction es with
  | nil =>
      intro u v w
      exact ⟨u, v, w, rfl⟩
  | cons e rest ih =>
      intro u v w
      obtain ⟨u2, v2, w2, h1⟩ := insertOne_two_points issub e x y u v w
      obtain ⟨u3, v3, w3, h2⟩ := ih u2 v2 w2
      exact ⟨u3, v3, w3, by rw [List.foldl_cons, h1, h2]⟩

theorem insertOne_head_block {Ty Fn : Type} (issub : Ty → Ty → Bool)
    (htrans : ∀ a b c, issub a b = true → issub b c = true → issub a c = true)
    (A : List Ty) (fA : Fn) (e : List Ty × Fn) :
    ∀ u v : Table Ty Fn, (∀ x ∈ u, sigLt issub x.1 A = true) →
      ∃ u2 v2, insertOne issub (u ++ (A, fA) :: v) e = u2 ++ (A, fA) :: v2 ∧
        ∀ x ∈ u2, sigLt issub x.1 A = true := by
  intro u
  induction u with
  | nil =>
      intro v _
      by_cases h : sigLt issub e.1 A = true
      · exact ⟨[e], v, by simp [insertOne, h], by simpa using h⟩
      · have h2 : sigLt issub e.1 A = false := by
          cases hv : sigLt issub e.1 A
          · rfl
          · exact absurd hv h
        exact ⟨[], insertOne issub v e, by simp [insertOne, h2], by simp⟩
  | cons a u ih =>
      intro v hu
      have ha : sigLt issub a.1 A = true := hu a (by simp)
      by_cases h : sigLt issub e.1 a.1 = true
      · refine ⟨e :: a :: u, v, by simp [insertOne, h], ?_⟩
        intro x hx
        rcases List.mem_cons.1 hx with rfl | hx
        · exact sigLt_trans issub htrans h ha
        · exact hu x hx
      · have h2 : sigLt issub e.1 a.1 = false := by
          cases hv : sigLt issub e.1 a.1
          · rfl
          · exact absurd hv h
        obtain ⟨u2, v2, heq, hu2⟩ := ih v fun x hx => hu x (by simp [hx])
        refine ⟨a :: u2, v2, by simp [insertOne, h2, heq], ?_⟩
        intro x hx
        rcases List.mem_cons.1 hx with rfl | hx
        · exact ha
        · exact hu2 x hx

theorem foldl_insertOne_head_block {Ty Fn : Type} (issub : Ty → Ty → Bool)
    (htrans : ∀ a b c, issub a b = true → issub b c = true → issub a c = true)
    (A : List Ty) (fA : Fn) :
    ∀ (es : List (List Ty × Fn)) (u v : Table Ty Fn),
      (∀ x ∈ u, sigLt issub x.1 A = true) →
      ∃ u2 v2, es.foldl (insertOne issub) (u ++ (A, fA) :: v) =
        u2 ++ (A, fA) :: v2 ∧ ∀ x ∈ u2, sigLt issub x.1 A = true := by
  intro es
  induction es with
  | nil =>
      intro u v hu
      exact ⟨u, v, rfl, hu⟩
  | cons e rest ih =>
      intro u v hu
      obtain ⟨u2, v2, h1, hu2⟩ := insertOne_head_block issub htrans A fA e u v hu
      obtain ⟨u3, v3, h2, hu3⟩ := ih u2 v2 hu2
      exact ⟨u3, v3, by rw [List.foldl_cons, h1, h2], hu3⟩

theorem insertOne_incomparable_lands_after {Ty Fn : Type}
    (issub : Ty → Ty → Bool)
    (htrans : ∀ a b c, issub a b = true → issub b c = true → issub a c = true)
    (A B : List Ty) (fA fB : Fn) (hBA : sigLt issub B A = false) :
    ∀ u v : Table Ty Fn, (∀ x ∈ u, sigLt issub x.1 A = true) →
      ∃ v1 v2, insertOne issub (u ++ (A, fA) :: v) (B, fB) =
        u ++ (A, fA) :: v1 ++ (B, fB) :: v2 := by
  intro u
  induction u with
  | nil =>
      intro v _
      rw [List.nil_append, insertOne]
      rw [show sigLt issub (B, fB).1 (A, fA).1 = false from hBA]
      simp only [Bool.false_eq_true, if_false]
      obtain ⟨v1, v2, hv⟩ : ∃ v1 v2,
          insertOne issub v (B, fB) = v1 ++ (B, fB) :: v2 :=
        ⟨_, _, insertOne_eq_takeDrop issub v (B, fB)⟩
      exact ⟨v1, v2, by rw [hv]; rfl⟩
  | cons a u ih =>
      intro v hu
      have ha : sigLt issub a.1 A = true := hu a (by simp)
      have hBa : sigLt issub B a.1 = false := by
        cases hv : sigLt issub B a.1
        · rfl
        · exact absurd (sigLt_trans issub htrans hv ha) (by rw [hBA]; simp)
      obtain ⟨v1, v2, hv⟩ := ih v fun x hx => hu x (by simp [hx])
      refine ⟨v1, v2, ?_⟩
      rw [List.cons_append, insertOne]
      rw [show sigLt issub (B, fB).1 a.1 = false from hBa]
      simp only [Bool.false_eq_true, if_false]
      rw [hv]
      rfl

theorem resolve_skip {Ty Fn : Type} (issub : Ty → Ty → Bool) :
    ∀ (u t : Table Ty Fn) (args : List Ty),
      (∀ x ∈ u, ¬ Matches issub x.1 args) →
      resolve issub (u ++ t) args = resolve issub t args := by
  intro u
  induction u with
  | nil =>
      intro t args _
      rfl
  | cons a u ih =>
      intro t args hu
      have ha : matchesB issub a.1 args = false := by
        cases hv : matchesB issub a.1 args
        · rfl
        · exact absurd ((matchesB_iff issub a.1 args).1 hv) (hu a (by simp))
      rw [List.cons_append, resolve_cons, if_neg (by simp [ha])]
      exact ih t args fun x hx => hu x (by simp [hx])

/-- C7 amended: two mutually incomparable, unequal same-arity signatures
can both be registered without error; every insertion preserves the
relative order of all entries already present (so once both are in the
table, no later registration swaps them); and if the first of the two was
registered into an *empty* table, it remains earlier than the other
regardless of the signatures registered between or after them, and a later
call matching both selects the first-registered implementation provided no
other matching entry precedes it.  (As `incomparable_pair_cex` shows, when
other signatures were registered *before* the first of the pair, the
later-inserted one can come to precede it and win the call, so the
original unconditional claim fails.)  Successful registrations act on the
table as a fold of `insertOne` over the expanded batch followed by a
key-order-preserving dict rebuild, so conjuncts about insertion sequences
cover them. -/
theorem incomparable_pair_amended {Ty Fn : Type} [DecidableEq Ty]
    (issub : Ty → Ty → Bool) (obj : Ty)
    (htrans : ∀ a b c, issub a b = true → issub b c = true → issub a c = true)
    (A B : List Ty) (hlen : A.length = B.length)
    (_hAB : sigLt issub A B = false) (hBA : sigLt issub B A = false)
    (hne : A ≠ B) (hA : A ≠ []) :
    (∀ fA fB : Fn,
      (register issub obj ([] : Table Ty Fn) (specsOfSig A) fA).2 = none ∧
      (register issub obj
        (register issub obj ([] : Table Ty Fn) (specsOfSig A) fA).1
        (specsOfSig B) fB).2 = none) ∧
    (∀ (t : Table Ty Fn) (e x y : List Ty × Fn) (u v w : Table Ty Fn),
      t = u ++ x :: v ++ y :: w →
      ∃ u2 v2 w2, insertOne issub t e = u2 ++ x :: v2 ++ y :: w2) ∧
    (∀ (fA fB : Fn) (es1 es2 : List (List Ty × Fn)),
      ∃ u v w,
        es2.foldl (insertOne issub)
          (insertOne issub (es1.foldl (insertOne issub) [(A, fA)]) (B, fB)) =
          u ++ (A, fA) :: v ++ (B, fB) :: w) ∧
    (∀ (t : Table Ty Fn) (fA fB : Fn) (u v w : Table Ty Fn) (args : List Ty),
      t = u ++ (A, fA) :: v ++ (B, fB) :: w →
      Matches issub A args → Matches issub B args →
      (∀ x ∈ u, ¬ Matches issub x.1 args) →
      resolve issub t args = Except.ok fA) := by
  have hB : B ≠ [] := by
    intro hBnil
    rw [hBnil] at hlen
    exact hA (List.length_eq_zero.1 hlen)
  refine ⟨?_, ?_, ?_, ?_⟩
  · intro fA fB
    have hfirst := register_single issub obj ([] : Table Ty Fn) A hA fA rfl
    have htab1 : (register issub obj ([] : Table Ty Fn) (specsOfSig A) fA).1 =
        [(A, fA)] := by
      rw [hfirst]
      rfl
    have hlook : lookupFn ([(A, fA)] : Table Ty Fn) B = none := by
      rw [lookupFn, List.find?_cons_of_neg]
      · rfl
      · simp [hne]
    refine ⟨by rw [hfirst], ?_⟩
    rw [htab1, register_single issub obj [(A, fA)] B hB fB hlook]
  · rintro t e x y u v w rfl
    exact insertOne_two_points issub e x y u v w
  · intro fA fB es1 es2
    obtain ⟨u2, v2, h1, hu2⟩ :=
      foldl_insertOne_head_block issub htrans A fA es1 [] [] (by simp)
    rw [List.nil_append] at h1
    obtain ⟨v1, w1, h2⟩ :=
      insertOne_incomparable_lands_after issub htrans A B fA fB hBA u2 v2 hu2
    obtain ⟨u3, v3, w3, h3⟩ :=
      foldl_insertOne_two_points issub (A, fA) (B, fB) es2 u2 v1 w1
    refine ⟨u3, v3, w3, ?_⟩
    rw [h1, h2, h3]
  · rintro t fA fB u v w args rfl hmA hmB hu
    rw [List.append_assoc, resolve_skip issub u _ args hu, List.cons_append,
      resolve_cons, if_pos ((matchesB_iff issub A args).2 hmA)]

/-- Concrete instance of `incomparable_pair_amended` on the `VTy`
universe with the pair `(Plant,)`, `(Dog,)`. -/
theorem incomparable_pair_amended_witness :
    (register vIssub VTy.objV ([] : Table VTy Nat)
        (specsOfSig [VTy.plant]) 1).2 = none ∧
    (register vIssub VTy.objV
        (register vIssub VTy.objV ([] : Table VTy Nat)
          (specsOfSig [VTy.plant]) 1).1
        (specsOfSig [VTy.dog]) 2).2 = none :=
  (incomparable_pair_amended vIssub VTy.objV (by decide) [VTy.plant] [VTy.dog]
    rfl (by decide) (by decide) (by decide) (by decide)).1 1 2
